import Mathlib

/-!
# Verification of the GEM momentum bot (`gem_bot.py`)

A shallow embedding of the program's core logic — month-end resampling,
trailing total returns, composite momentum scoring, ranking via CPython's
`sorted(..., reverse=True)`, the risk-off decision rule, and the percentage
formatter — together with theorems settling the specification claims.

Numbers: the program computes with Python/numpy doubles; the specification's
data model speaks of exact real numbers.  We embed a double as `PyFloat`:
a finite rational, `+inf`, `-inf`, or `NaN` (the program's "undefined"
marker, `float('nan')`), with exact rational arithmetic in the finite case
and the IEEE special-value rules (NaN propagation, signed infinities) for
the rest.
-/

namespace GemBot

/-- A Python/numpy double as used by `gem_bot.py`: finite (modelled exactly,
as a rational), positive or negative infinity, or NaN. -/
inductive PyFloat where
  | fin (q : ℚ)
  | pinf
  | ninf
  | nan
  deriving DecidableEq, Repr, Inhabited

/-- `math.isnan`. -/
def PyFloat.isNan : PyFloat → Bool
  | .nan => true
  | _ => false

/-- `math.isinf`. -/
def PyFloat.isInf : PyFloat → Bool
  | .pinf => true
  | .ninf => true
  | _ => false

/-- A finite (ordinary) float: not NaN, not infinite. -/
def PyFloat.isFinite : PyFloat → Bool
  | .fin _ => true
  | _ => false

/-- Python float `<`: any comparison with NaN is false. -/
def pyLt : PyFloat → PyFloat → Bool
  | .fin a, .fin b => a < b
  | .fin _, .pinf => true
  | .ninf, .fin _ => true
  | .ninf, .pinf => true
  | _, _ => false

/-- Python float `<=`: any comparison with NaN is false. -/
def pyLe : PyFloat → PyFloat → Bool
  | .fin a, .fin b => a ≤ b
  | .fin _, .pinf => true
  | .ninf, .fin _ => true
  | .ninf, .pinf => true
  | .ninf, .ninf => true
  | .pinf, .pinf => true
  | _, _ => false

/-- Python float negation. -/
def pyNeg : PyFloat → PyFloat
  | .fin a => .fin (-a)
  | .pinf => .ninf
  | .ninf => .pinf
  | .nan => .nan

/-- Python float addition (IEEE rules: NaN propagates, `inf + -inf = NaN`). -/
def pyAdd : PyFloat → PyFloat → PyFloat
  | .nan, _ => .nan
  | _, .nan => .nan
  | .pinf, .ninf => .nan
  | .ninf, .pinf => .nan
  | .pinf, _ => .pinf
  | _, .pinf => .pinf
  | .ninf, _ => .ninf
  | _, .ninf => .ninf
  | .fin a, .fin b => .fin (a + b)

/-- Python float subtraction, `a - b = a + (-b)`. -/
def pySub (a b : PyFloat) : PyFloat :=
  pyAdd a (pyNeg b)

/-- Python float multiplication (IEEE rules: NaN propagates, `0 * inf = NaN`). -/
def pyMul : PyFloat → PyFloat → PyFloat
  | .nan, _ => .nan
  | _, .nan => .nan
  | .fin a, .fin b => .fin (a * b)
  | .fin a, .pinf => if a = 0 then .nan else if 0 < a then .pinf else .ninf
  | .pinf, .fin a => if a = 0 then .nan else if 0 < a then .pinf else .ninf
  | .fin a, .ninf => if a = 0 then .nan else if 0 < a then .ninf else .pinf
  | .ninf, .fin a => if a = 0 then .nan else if 0 < a then .ninf else .pinf
  | .pinf, .pinf => .pinf
  | .pinf, .ninf => .ninf
  | .ninf, .pinf => .ninf
  | .ninf, .ninf => .pinf

/-- numpy float division (IEEE rules; `x / 0` gives a signed infinity for
`x ≠ 0` and NaN for `0 / 0`, as numpy float64 division does). -/
def pyDiv : PyFloat → PyFloat → PyFloat
  | .nan, _ => .nan
  | _, .nan => .nan
  | .fin a, .fin b =>
      if b = 0 then (if a = 0 then .nan else if 0 < a then .pinf else .ninf)
      else .fin (a / b)
  | .fin _, .pinf => .fin 0
  | .fin _, .ninf => .fin 0
  | .pinf, .fin b => if 0 ≤ b then .pinf else .ninf
  | .ninf, .fin b => if 0 ≤ b then .ninf else .pinf
  | .pinf, _ => .nan
  | .ninf, _ => .nan

/-- A calendar date (year, month, day), as carried by the pandas
`DatetimeIndex` of a price series. -/
structure Date where
  y : ℕ
  m : ℕ
  d : ℕ
  deriving DecidableEq, Repr, Inhabited

/-- Gregorian leap year. -/
def isLeap (y : ℕ) : Bool :=
  y % 4 = 0 && (y % 100 ≠ 0 || y % 400 = 0)

/-- Number of days in a calendar month. -/
def daysInMonth (y m : ℕ) : ℕ :=
  if m = 2 then (if isLeap y then 29 else 28)
  else if m = 4 ∨ m = 6 ∨ m = 9 ∨ m = 11 then 30
  else 31

/-- The calendar month-end date of a date's month: what pandas
`resample('ME')` stamps each bin with. -/
def monthEnd (dt : Date) : Date :=
  ⟨dt.y, dt.m, daysInMonth dt.y dt.m⟩

/-- Strictly-before order on dates. -/
def dateLt (a b : Date) : Prop :=
  a.y < b.y ∨ (a.y = b.y ∧ (a.m < b.m ∨ (a.m = b.m ∧ a.d < b.d)))

instance (a b : Date) : Decidable (dateLt a b) := by
  unfold dateLt
  infer_instance

/-- A pandas `Series` of float prices indexed by dates, in index order. -/
abbrev Series := List (Date × PyFloat)

/-- `series.dropna()`: drop NaN values. -/
def dropna (s : Series) : Series :=
  s.filter fun x => !x.2.isNan

/-- `s.resample('ME').last()` on a date-ascending series, with the empty
bins already dropped: keep, for each run of consecutive observations in the
same calendar month, the last one, re-stamped at the month-end date. -/
def resampleME : Series → Series
  | [] => []
  | (dt, p) :: rest =>
      match resampleME rest with
      | [] => [(monthEnd dt, p)]
      | (dt2, p2) :: tail =>
          if dt.y = dt2.y ∧ dt.m = dt2.m then (dt2, p2) :: tail
          else (monthEnd dt, p) :: (dt2, p2) :: tail

/-- `month_end_series` (gem_bot.py:11-18): drop NaNs; if empty, return the
empty series; otherwise resample to month-end and drop (empty-bin) NaNs. -/
def month_end_series (series : Series) : Series :=
  let s := dropna series
  if s.isEmpty then s else dropna (resampleME s)

/-- `total_return` (gem_bot.py:21-31): total return over `months` months
from a month-end series, skipping the last `skip_last` points; NaN when the
series is shorter than `months + 1 + skip_last`. -/
def total_return (monthly_prices : Series) (months : ℕ) (skip_last : ℕ) : PyFloat :=
  if monthly_prices.length < months + 1 + skip_last then .nan
  else
    pySub
      (pyDiv (monthly_prices.getD (monthly_prices.length - 1 - skip_last) default).2
        (monthly_prices.getD (monthly_prices.length - 1 - skip_last - months) default).2)
      (.fin 1)

/-- Round a rational to the nearest integer, ties to even (the rounding of
Python's fixed-point float formatting). -/
def rhe (z : ℚ) : ℤ :=
  let f := ⌊z⌋
  let r := z - f
  if r < 1 / 2 then f
  else if 1 / 2 < r then f + 1
  else if f % 2 = 0 then f else f + 1

/-- Left-pad a numeral to two digits. -/
def pad2 (n : ℕ) : String :=
  if n < 10 then "0" ++ toString n else toString n

/-- Python `f"{y:.2f}"` on an exact value `y`: fixed-point, two decimals,
ties to even; a negative value keeps its minus sign even when it rounds to
zero. -/
def fmtFixed2 (y : ℚ) : String :=
  let n : ℤ := rhe (y * 100)
  (if y < 0 then "-" else "") ++ toString (n.natAbs / 100) ++ "." ++ pad2 (n.natAbs % 100)

/-- `fmt_pct` (gem_bot.py:34-37): `None`, NaN and infinities render as
`"n/a"`; a finite `x` renders as `f"{x * 100:.2f}%"`. -/
def fmt_pct (x : Option PyFloat) : String :=
  match x with
  | none => "n/a"
  | some .nan => "n/a"
  | some .pinf => "n/a"
  | some .ninf => "n/a"
  | some (.fin q) => fmtFixed2 (q * 100) ++ "%"

/-!
## CPython `sorted`

`gem_bot.py:153` ranks with `sorted(..., key=lambda x: x[1], reverse=True)`.
CPython implements `reverse=True` by reversing the list, sorting ascending
(stably), and reversing again; for lists of fewer than 64 elements the
ascending sort is a single `count_run` (one maximal ascending — or strictly
descending, then reversed — initial run) followed by one binary-insertion
pass (`binarysort`).  We model exactly that; for longer inputs CPython's
merge phase coincides with this model whenever the comparison is a total
preorder (both are then the unique stable sort), which covers every claim
below — the NaN-sensitive statements are settled on short lists.  All
comparisons are `<` on the keys, so a comparison against a NaN key is
always false.
-/

/-- Fuel-indexed CPython `binarysort` binary search: the position at which
the pivot is inserted into the sorted window `xs[l:r]`, found by halving
with the single comparison `pivot < xs[p]` (insertion goes after equal
elements, which is what makes the sort stable).  With `fuel ≥ r - l` the
fuel never runs out. -/
def bfind {α : Type} [Inhabited α] (lt : α → α → Bool) (pivot : α) (xs : List α) :
    ℕ → ℕ → ℕ → ℕ
  | 0, l, _ => l
  | fuel + 1, l, r =>
      if l < r then
        if lt pivot (xs.getD (l + (r - l) / 2) default) then
          bfind lt pivot xs fuel l (l + (r - l) / 2)
        else bfind lt pivot xs fuel (l + (r - l) / 2 + 1) r
      else l

/-- One binary-insertion step of CPython `binarysort`. -/
def binInsert {α : Type} [Inhabited α] (lt : α → α → Bool) (xs : List α) (pivot : α) :
    List α :=
  let pos := bfind lt pivot xs xs.length 0 xs.length
  xs.take pos ++ pivot :: xs.drop pos

/-- CPython `binarysort`: extend the sorted initial run `run` by inserting
the remaining elements one by one. -/
def binarysort {α : Type} [Inhabited α] (lt : α → α → Bool) (run rest : List α) : List α :=
  rest.foldl (binInsert lt) run

/-- The strictly-descending branch of CPython `count_run`: collect while
each next element is `<` its predecessor. -/
def descRun {α : Type} (lt : α → α → Bool) : α → List α → List α × List α
  | prev, [] => ([prev], [])
  | prev, c :: t =>
      if lt c prev then (prev :: (descRun lt c t).1, (descRun lt c t).2)
      else ([prev], c :: t)

/-- The ascending branch of CPython `count_run`: collect while each next
element is not `<` its predecessor. -/
def ascRun {α : Type} (lt : α → α → Bool) : α → List α → List α × List α
  | prev, [] => ([prev], [])
  | prev, c :: t =>
      if lt c prev then ([prev], c :: t)
      else (prev :: (ascRun lt c t).1, (ascRun lt c t).2)

/-- CPython `count_run`: the maximal initial ascending run, a strictly
descending initial run being reversed in place. -/
def count_run {α : Type} (lt : α → α → Bool) : List α → List α × List α
  | [] => ([], [])
  | [a] => ([a], [])
  | a :: b :: t =>
      if lt b a then ((a :: (descRun lt b t).1).reverse, (descRun lt b t).2)
      else (a :: (ascRun lt b t).1, (ascRun lt b t).2)

/-- CPython `list.sort` (ascending, no merge phase): one `count_run`, then
`binarysort` the rest into it. -/
def timsortLow {α : Type} [Inhabited α] (lt : α → α → Bool) (l : List α) : List α :=
  binarysort lt (count_run lt l).1 (count_run lt l).2

/-- CPython `sorted(l, reverse=True)`: reverse, sort ascending, reverse. -/
def pysortedRev {α : Type} [Inhabited α] (lt : α → α → Bool) (l : List α) : List α :=
  (timsortLow lt l.reverse).reverse

/-- The ranking comparison of gem_bot.py:153: `<` on `key=lambda x: x[1]`,
the score. -/
def scoreLt (a b : String × PyFloat) : Bool :=
  pyLt a.2 b.2

/-- `ranked = sorted(((n, details[n]['score']) for n in risk_assets),
key=lambda x: x[1], reverse=True)` (gem_bot.py:153), given the already
looked-up `(name, score)` pairs. -/
def rankRisk (scored : List (String × PyFloat)) : List (String × PyFloat) :=
  pysortedRev scoreLt scored

/-!
## Scoring, decision and the `main` pipeline
-/

/-- The per-asset numbers of gem_bot.py:139-142. -/
structure Metrics where
  r12_1 : PyFloat
  r6 : PyFloat
  score : PyFloat
  deriving DecidableEq, Repr, Inhabited

/-- `score = 0.5 * r12_1 + 0.5 * r6` (gem_bot.py:141), in float arithmetic. -/
def blend (r12_1 r6 : PyFloat) : PyFloat :=
  pyAdd (pyMul (.fin (1 / 2)) r12_1) (pyMul (.fin (1 / 2)) r6)

/-- gem_bot.py:139-141: classic GEM metrics of one month-end series. -/
def metricsOf (me : Series) : Metrics :=
  let r12_1 := total_return me 12 1
  let r6 := total_return me 6 0
  ⟨r12_1, r6, blend r12_1 r6⟩

/-- The risk-off test of gem_bot.py:156: `(top_score is None) or
(isinstance(top_score, float) and math.isnan(top_score)) or
top_score <= threshold`. -/
def riskOffCond (top_score : Option PyFloat) (threshold : ℚ) : Bool :=
  match top_score with
  | none => true
  | some s => s.isNan || pyLe s (.fin threshold)

/-- The selection of gem_bot.py:156-161 applied to a ranked list: the
safe-haven name on the risk-off branch, the top entry's name otherwise
(`none` models the `IndexError` of `ranked[0]` on an empty list). -/
def gemChoice (ranked : List (String × PyFloat)) (threshold : ℚ) (bonds_name : String) :
    Option String :=
  match ranked with
  | [] => none
  | (n, s) :: _ => some (if riskOffCond (some s) threshold then bonds_name else n)

/-- The configuration read from the environment in gem_bot.py:94-98,
already parsed (the JSON loader is the spec's external configuration
collaborator). -/
structure Config where
  tickers : List (String × String)
  risk_assets : List String
  bonds_name : String
  threshold : ℚ
  capital_eur : String

/-- The ways a run dies: each `sys.exit(2)` call of `main`, plus the two
uncaught exceptions an invalid configuration can raise (a `KeyError` from
`details[n]` and the unreachable `IndexError` from `ranked[0]`), which
terminate the interpreter with exit status 1. -/
inductive Err where
  | emptyTickers
  | emptyRiskAssets
  | bondsMissing
  | noData (name : String)
  | noMonthEnd (name : String)
  | keyError (name : String)
  | indexError
  deriving DecidableEq, Repr

/-- The process exit status each fatal outcome produces. -/
def Err.exitCode : Err → ℕ
  | .keyError _ => 1
  | .indexError => 1
  | _ => 2

/-- The fetch loop of gem_bot.py:116-134: for each configured asset in
order, fetch (`none` models `yf.download` returning nothing as well as a
failed price extraction), resample to month-end, and abort on the first
failure or empty month-end series. -/
def fetchAll (fetch : String → Option Series) :
    List (String × String) → Except Err (List (String × Series))
  | [] => .ok []
  | (name, tk) :: rest =>
      match fetch tk with
      | none => .error (.noData name)
      | some s =>
          let me := month_end_series s
          if me.isEmpty then .error (.noMonthEnd name)
          else (fetchAll fetch rest).map fun r => (name, me) :: r

/-- The generator of gem_bot.py:153, `(n, details[n]['score']) for n in
risk_assets`, as consumed by `sorted`: a missing key raises `KeyError`. -/
def lookupScores (details : List (String × Metrics)) :
    List String → Except Err (List (String × PyFloat))
  | [] => .ok []
  | n :: rest =>
      match List.lookup n details with
      | none => .error (.keyError n)
      | some m => (lookupScores details rest).map fun r => (n, m.score) :: r

/-- Left-pad a numeral to four digits. -/
def pad4 (n : ℕ) : String :=
  if n < 10 then "000" ++ toString n
  else if n < 100 then "00" ++ toString n
  else if n < 1000 then "0" ++ toString n
  else toString n

/-- `str(me.index[-1].date())` (gem_bot.py:134): ISO `YYYY-MM-DD`. -/
def dateStr (dt : Date) : String :=
  pad4 dt.y ++ "-" ++ pad2 dt.m ++ "-" ++ pad2 dt.d

/-- `last_me_date` (gem_bot.py:134): the date of the last month-end
observation of each asset ("" is unreachable: each stored series is
non-empty). -/
def lastDatesOf (monthly : List (String × Series)) : List (String × String) :=
  monthly.map fun x => (x.1, (x.2.getLast?.map fun e => dateStr e.1).getD "")

/-- The produced artifact: the ranked list, the chosen asset, the rationale
line, and the full message written to `gem_message.txt`. -/
structure Report where
  ranked : List (String × PyFloat)
  choice : String
  reason : String
  msg : String
  deriving DecidableEq, Repr

/-- One ranking line of gem_bot.py:172 (the lookups are total by
construction: every ranked name is a key of `details` and of the date
map). -/
def assetLine (details : List (String × Metrics)) (lastDates : List (String × String))
    (n : String) : String :=
  let d := (List.lookup n details).getD default
  "â¢ " ++ n ++ ": score " ++ fmt_pct (some d.score) ++ " | 12-1 " ++
    fmt_pct (some d.r12_1) ++ " | 6M " ++ fmt_pct (some d.r6) ++ " | ME: " ++
    ((List.lookup n lastDates).getD "")

/-- gem_bot.py:156-183: the decision branch, rationale and message lines
(string glyphs reproduced as they stand, byte-for-byte, in the source
file). -/
def buildReport (cfg : Config) (details : List (String × Metrics))
    (lastDates : List (String × String)) (ranked : List (String × PyFloat))
    (top_name : String) (top_score : PyFloat) (now_local : String) : Report :=
  let riskoff := riskOffCond (some top_score) cfg.threshold
  let choice := if riskoff then cfg.bonds_name else top_name
  let reason :=
    if riskoff then
      "RISK-OFF: najlepszy wynik " ++ top_name ++ " = " ++ fmt_pct (some top_score) ++
        " â¤ " ++ fmt_pct (some (.fin cfg.threshold))
    else
      "RISK-ON: wygrywa " ++ top_name ++ " = " ++ fmt_pct (some top_score)
  let bd := (List.lookup cfg.bonds_name details).getD default
  let bondsLine := "ð¡ï¸ " ++ cfg.bonds_name ++ ": score " ++ fmt_pct (some bd.score) ++
    " | 12-1 " ++ fmt_pct (some bd.r12_1) ++ " | 6M " ++ fmt_pct (some bd.r6) ++
    " | ME: " ++ ((List.lookup cfg.bonds_name lastDates).getD "")
  let lines := ["ð GEM â sygnaÅ (klasyczny 12-1 + 6M)", "ð " ++ now_local, "",
      "Ranking (risk assets):"] ++
    ranked.map (fun x => assetLine details lastDates x.1) ++
    ["", bondsLine, "", "â DECYZJA: " ++ choice, "â¹ï¸ " ++ reason,
      "ð° KapitaÅ GEM: " ++ cfg.capital_eur ++ "â¬ (rotacyjny, 1 ETF naraz)"]
  { ranked := ranked, choice := choice, reason := reason,
    msg := String.intercalate "\n" lines }

/-- gem_bot.py:153-183 once the scored risk-asset pairs are in hand: rank
them, take `ranked[0]` (an empty ranking would raise `IndexError`), decide,
and build the report. -/
def afterScores (cfg : Config) (now_local : String) (monthly : List (String × Series))
    (scored : List (String × PyFloat)) : Except Err Report :=
  match rankRisk scored with
  | [] => .error .indexError
  | (top_name, top_score) :: rest =>
      .ok (buildReport cfg (monthly.map fun x => (x.1, metricsOf x.2))
        (lastDatesOf monthly) ((top_name, top_score) :: rest) top_name top_score
        now_local)

/-- gem_bot.py:136-153 once every asset's month-end series is in hand:
compute metrics and look up each risk asset's score (a name that is not a
key of `details` raises `KeyError` inside the `sorted` generator). -/
def afterFetch (cfg : Config) (now_local : String)
    (monthly : List (String × Series)) : Except Err Report :=
  match lookupScores (monthly.map fun x => (x.1, metricsOf x.2)) cfg.risk_assets with
  | .error e => .error e
  | .ok scored => afterScores cfg now_local monthly scored

/-- `main` (gem_bot.py:92-189) as a function of the parsed configuration,
the price provider, and the wall-clock string: either a fatal outcome (the
report is not produced) or the produced report. -/
def mainModel (cfg : Config) (fetch : String → Option Series) (now_local : String) :
    Except Err Report :=
  if cfg.tickers.isEmpty then .error .emptyTickers
  else if cfg.risk_assets.isEmpty then .error .emptyRiskAssets
  else if (List.lookup cfg.bonds_name cfg.tickers).isNone then .error .bondsMissing
  else
    match fetchAll fetch cfg.tickers with
    | .error e => .error e
    | .ok monthly => afterFetch cfg now_local monthly

/-- The produced decision of a run, if the run produced one. -/
def reportChoice : Except Err Report → Option String
  | .ok rep => some rep.choice
  | .error _ => none

/-!
## Concrete fixtures used by witnesses and counterexamples
-/

/-- The spec's worked 3-point month-end series `[100, 110, 121]`. -/
def demo3 : Series :=
  [(⟨2024, 1, 31⟩, .fin 100), (⟨2024, 2, 29⟩, .fin 110), (⟨2024, 3, 31⟩, .fin 121)]

/-- A daily series with a NaN and several observations per month. -/
def dailyA : Series :=
  [(⟨2024, 1, 3⟩, .fin 10), (⟨2024, 1, 17⟩, .nan), (⟨2024, 1, 20⟩, .fin 12),
   (⟨2024, 2, 5⟩, .fin 13), (⟨2024, 3, 7⟩, .fin 14), (⟨2024, 3, 29⟩, .fin 15)]

/-- Ranked input whose undefined-score entry comes first. -/
def cexRanked : List (String × PyFloat) :=
  [("C", .nan), ("A", .fin 5), ("B", .fin 10)]

/-- Seven month-ends: enough history for the 6-month return but not for
12-1, so the composite score is NaN. -/
def seriesA : Series :=
  [(⟨2024, 1, 10⟩, .fin 100), (⟨2024, 2, 10⟩, .fin 101), (⟨2024, 3, 10⟩, .fin 102),
   (⟨2024, 4, 10⟩, .fin 103), (⟨2024, 5, 10⟩, .fin 104), (⟨2024, 6, 10⟩, .fin 105),
   (⟨2024, 7, 10⟩, .fin 106)]

/-- A short safe-haven series. -/
def seriesB : Series :=
  [(⟨2024, 1, 10⟩, .fin 100), (⟨2024, 2, 10⟩, .fin 101)]

/-- One risk asset whose score comes out NaN, plus the safe haven. -/
def cfgA : Config :=
  { tickers := [("A", "TA"), ("BONDS", "TB")], risk_assets := ["A"],
    bonds_name := "BONDS", threshold := 0, capital_eur := "560" }

/-- Price provider for `cfgA`. -/
def fetchA : String → Option Series :=
  fun t => if t = "TA" then some seriesA else if t = "TB" then some seriesB else none

/-- A configuration with no tickers at all. -/
def cfgEmpty : Config :=
  { tickers := [], risk_assets := [], bonds_name := "BONDS", threshold := 0,
    capital_eur := "560" }

/-!
## Small helper lemmas
-/

/-- The price invariant of the spec's data model: a positive finite value. -/
def isPosPrice (v : PyFloat) : Bool :=
  match v with
  | .fin q => decide (0 < q)
  | _ => false

theorem isPosPrice_iff {v : PyFloat} :
    isPosPrice v = true ↔ ∃ q : ℚ, v = .fin q ∧ 0 < q := by
  cases v <;> simp [isPosPrice]

theorem getD_eq_getElem {α : Type} [Inhabited α] (l : List α) (i : ℕ) (h : i < l.length) :
    l.getD i default = l[i] := by
  simp [List.getD_eq_getElem?_getD, List.getElem?_eq_getElem h]

/-- A rendered percentage always ends in `%`, so it is never the
"not available" marker. -/
theorem append_percent_ne_na (s : String) : s ++ "%" ≠ "n/a" := by
  intro h
  have hd : (s ++ "%").data = "n/a".data := congrArg String.data h
  rw [String.data_append] at hd
  have hlast := congrArg List.getLast? hd
  rw [show ("%" : String).data = ['%'] from rfl, List.getLast?_concat] at hlast
  simp at hlast

/-!
## Claims
-/

/-- C4: `total_return` is the explicit undefined marker (NaN) whenever the
series has fewer than `months + 1 + skip_last` observations, and a defined
(finite) numeric value for every positive-price series with exactly that
many observations. -/
theorem C4_total_return_min_length (series : Series) (months skip_last : ℕ)
    (hpos : ∀ x ∈ series, isPosPrice x.2 = true) :
    (series.length < months + 1 + skip_last →
      total_return series months skip_last = .nan) ∧
    (series.length = months + 1 + skip_last →
      ∃ q : ℚ, total_return series months skip_last = .fin q) := by
  constructor
  · intro h
    simp [total_return, h]
  · intro h
    have hnl : ¬ series.length < months + 1 + skip_last := by omega
    have hm : months < series.length := by omega
    have h0 : 0 < series.length := by omega
    have hidx : series.length - 1 - skip_last = months := by omega
    have hidx2 : series.length - 1 - skip_last - months = 0 := by omega
    obtain ⟨qe, hqe, hqe0⟩ :=
      isPosPrice_iff.mp (hpos series[months] (List.getElem_mem hm))
    obtain ⟨qs, hqs, hqs0⟩ :=
      isPosPrice_iff.mp (hpos series[0] (List.getElem_mem h0))
    refine ⟨qe / qs - 1, ?_⟩
    rw [total_return, if_neg hnl, hidx2, hidx, getD_eq_getElem _ _ hm,
      getD_eq_getElem _ _ h0, hqe, hqs]
    rw [pyDiv, if_neg hqs0.ne']
    rw [show pySub (.fin (qe / qs)) (.fin 1) = .fin (qe / qs + -1) from rfl]
    rw [← sub_eq_add_neg]

/-- C4 witness: the 3-point demo series has exactly the minimum length for
a 2-month window, and falls short of a 3-month window. -/
theorem C4_total_return_min_length_witness :
    (∃ q : ℚ, total_return demo3 2 0 = .fin q) ∧ total_return demo3 3 0 = .nan :=
  ⟨(C4_total_return_min_length demo3 2 0 (by decide)).2 (by decide),
   (C4_total_return_min_length demo3 3 0 (by decide)).1 (by decide)⟩

/-- C5: on a long-enough series, `total_return` divides the observation at
position `last - skip_last` by the one at `last - skip_last - months` and
subtracts one; on `[100, 110, 121]` the 1-month return is exactly `0.10`
and the 2-month return exactly `0.21`. -/
theorem C5_total_return_window :
    (∀ (series : Series) (months skip_last : ℕ),
        months + 1 + skip_last ≤ series.length →
        total_return series months skip_last =
          pySub
            (pyDiv (series.getD (series.length - 1 - skip_last) default).2
              (series.getD (series.length - 1 - skip_last - months) default).2)
            (.fin 1)) ∧
    total_return demo3 1 0 = .fin (1 / 10) ∧
    total_return demo3 2 0 = .fin (21 / 100) := by
  refine ⟨fun series months skip_last h => ?_, ?_, ?_⟩
  · have hnl : ¬ series.length < months + 1 + skip_last := by omega
    rw [total_return, if_neg hnl]
  · rw [show total_return demo3 1 0 = pySub (pyDiv (.fin 121) (.fin 110)) (.fin 1) from rfl,
      pyDiv, if_neg (by norm_num : ¬(110 : ℚ) = 0)]
    rw [show pySub (.fin ((121 : ℚ) / 110)) (.fin 1) = .fin ((121 : ℚ) / 110 + -1) from rfl]
    norm_num
  · rw [show total_return demo3 2 0 = pySub (pyDiv (.fin 121) (.fin 100)) (.fin 1) from rfl,
      pyDiv, if_neg (by norm_num : ¬(100 : ℚ) = 0)]
    rw [show pySub (.fin ((121 : ℚ) / 100)) (.fin 1) = .fin ((121 : ℚ) / 100 + -1) from rfl]
    norm_num

/-- C5 witness: the window formula applied to the demo series. -/
theorem C5_total_return_window_witness :
    total_return demo3 1 0 =
      pySub (pyDiv (demo3.getD (demo3.length - 1 - 0) default).2
        (demo3.getD (demo3.length - 1 - 0 - 1) default).2) (.fin 1) :=
  C5_total_return_window.1 demo3 1 0 (by decide)

/-- C10: the degenerate zero-month window on a non-empty positive-price
series is defined and exactly zero. -/
theorem C10_zero_window (series : Series) (hne : series ≠ [])
    (hpos : ∀ x ∈ series, isPosPrice x.2 = true) :
    total_return series 0 0 = .fin 0 := by
  have h0 : 0 < series.length := List.length_pos.mpr hne
  have hnl : ¬ series.length < 0 + 1 + 0 := by omega
  have hlt : series.length - 1 < series.length := by omega
  obtain ⟨q, hq, hq0⟩ :=
    isPosPrice_iff.mp (hpos series[series.length - 1] (List.getElem_mem hlt))
  rw [total_return, if_neg hnl]
  simp only [Nat.sub_zero]
  rw [getD_eq_getElem _ _ hlt, hq]
  rw [pyDiv, if_neg hq0.ne', div_self hq0.ne']
  rw [show pySub (.fin 1) (.fin 1) = .fin (1 + -1) from rfl]
  norm_num

/-- C10 witness: the zero-month window on the demo series. -/
theorem C10_zero_window_witness : total_return demo3 0 0 = .fin 0 :=
  C10_zero_window demo3 (by decide) (by decide)

/-- C6: the composite score is exactly `0.5 * momentum_12_1 +
0.5 * momentum_6` of the asset's month-end series; a NaN component always
propagates to a NaN score; `0.5 * 0.20 + 0.5 * 0.10 = 0.15` exactly. -/
theorem C6_score_blend :
    (∀ me : Series,
        (metricsOf me).score = blend (total_return me 12 1) (total_return me 6 0)) ∧
    (∀ x : PyFloat, blend .nan x = .nan ∧ blend x .nan = .nan) ∧
    blend (.fin (1 / 5)) (.fin (1 / 10)) = .fin (3 / 20) := by
  refine ⟨fun me => rfl, fun x => ⟨?_, ?_⟩, ?_⟩
  · cases x <;> norm_num [blend, pyMul, pyAdd]
  · cases x <;> norm_num [blend, pyMul, pyAdd]
  · norm_num [blend, pyMul, pyAdd]

/-- C8: the percentage formatter yields the fixed `"n/a"` marker exactly on
missing (`None`), NaN, and infinite inputs, and renders finite values as
signed two-decimal percentages (never a blank, never `"n/a"`). -/
theorem C8_fmt_pct_na :
    (∀ x : Option PyFloat,
        fmt_pct x = "n/a" ↔
          x = none ∨ x = some .nan ∨ x = some .pinf ∨ x = some .ninf) ∧
    fmt_pct (some (.fin (1 / 10))) = "10.00%" ∧
    fmt_pct (some (.fin (-(1 / 40)))) = "-2.50%" ∧
    fmt_pct (some (.fin 0)) = "0.00%" := by
  have h1 : fmt_pct (some (.fin (1 / 10))) = "10.00%" := by
    rw [fmt_pct, show (1 / 10 : ℚ) * 100 = 10 from by norm_num, fmtFixed2,
      show (10 : ℚ) * 100 = 1000 from by norm_num,
      show rhe 1000 = 1000 from by rw [rhe]; norm_num,
      if_neg (by norm_num : ¬(10 : ℚ) < 0)]
    rfl
  have h2 : fmt_pct (some (.fin (-(1 / 40)))) = "-2.50%" := by
    rw [fmt_pct, show (-(1 / 40) : ℚ) * 100 = -(5 / 2) from by norm_num, fmtFixed2,
      show (-(5 / 2) : ℚ) * 100 = -250 from by norm_num,
      show rhe (-250) = -250 from by rw [rhe]; norm_num,
      if_pos (by norm_num : (-(5 / 2) : ℚ) < 0)]
    rfl
  have h3 : fmt_pct (some (.fin 0)) = "0.00%" := by
    rw [fmt_pct, show (0 : ℚ) * 100 = 0 from by norm_num, fmtFixed2,
      show (0 : ℚ) * 100 = 0 from by norm_num,
      show rhe 0 = 0 from by rw [rhe]; norm_num,
      if_neg (by norm_num : ¬(0 : ℚ) < 0)]
    rfl
  refine ⟨fun x => ?_, h1, h2, h3⟩
  match x with
  | none => simp [fmt_pct]
  | some .nan => simp [fmt_pct]
  | some .pinf => simp [fmt_pct]
  | some .ninf => simp [fmt_pct]
  | some (.fin q) => simp [fmt_pct, append_percent_ne_na]

/-- C1 counterexample: a positively-infinite top score is not a finite
number, yet the code selects the top risk asset, not the safe haven — the
risk-off test checks only `None`/NaN and `<= threshold`. -/
theorem C1_counterexample :
    PyFloat.pinf.isFinite = false ∧
    gemChoice [("SPY", .pinf)] 0 "BONDS" = some "SPY" ∧
    ("SPY" : String) ≠ "BONDS" := by
  refine ⟨rfl, ?_, by decide⟩
  rfl

/-- C1 (amended): the decision selects the safe haven exactly when the top
score is undefined (`None` or NaN) or `<=` the threshold; a `+inf` score —
not finite — selects the risk asset (it fails both tests); at threshold 0 a
score of exactly 0 selects the safe haven and `0.0001` the risk asset. -/
theorem C1_decision_rule (n : String) (s : PyFloat) (rest : List (String × PyFloat))
    (threshold : ℚ) (bonds : String) (hne : n ≠ bonds) :
    (gemChoice ((n, s) :: rest) threshold bonds = some bonds ↔
      s = .nan ∨ pyLe s (.fin threshold) = true) ∧
    riskOffCond none threshold = true ∧
    gemChoice ((n, .fin 0) :: rest) 0 bonds = some bonds ∧
    gemChoice ((n, .fin (1 / 10000)) :: rest) 0 bonds = some n := by
  refine ⟨?_, rfl, ?_, ?_⟩
  · rw [gemChoice, riskOffCond]
    by_cases hs : s = .nan
    · subst hs
      simp [PyFloat.isNan]
    · have hnan : s.isNan = false := by cases s <;> simp_all [PyFloat.isNan]
      rw [hnan]
      cases hle : pyLe s (.fin threshold)
      · simp [hs, hle, hne]
      · simp [hle]
  · rw [show gemChoice ((n, .fin 0) :: rest) 0 bonds =
      some (if riskOffCond (some (.fin 0)) 0 then bonds else n) from rfl]
    rw [riskOffCond, show PyFloat.isNan (.fin 0) = false from rfl, pyLe]
    norm_num
  · rw [show gemChoice ((n, .fin (1 / 10000)) :: rest) 0 bonds =
      some (if riskOffCond (some (.fin (1 / 10000))) 0 then bonds else n) from rfl]
    rw [riskOffCond, show PyFloat.isNan (.fin (1 / 10000)) = false from rfl, pyLe]
    norm_num

/-- C1 witness: the amended rule at a concrete boundary input. -/
theorem C1_decision_rule_witness :
    gemChoice [("SPY", PyFloat.fin 0)] 0 "BONDS" = some "BONDS" :=
  (C1_decision_rule "SPY" (.fin 0) [] 0 "BONDS" (by decide)).2.2.1

/-- C2 counterexample: with the undefined-score entry first in the input,
CPython's sort leaves it first — the undefined score does not sort last
(the defined-score entry `("A", 5)` is last instead). -/
theorem C2_counterexample :
    rankRisk cexRanked = [("C", .nan), ("B", .fin 10), ("A", .fin 5)] ∧
    (rankRisk cexRanked).getLast? = some ("A", .fin 5) ∧
    PyFloat.nan ≠ PyFloat.fin 5 := by
  refine ⟨by decide, by decide, by decide⟩

/-!
### C2: what CPython's sort does to the ranking

For defined (non-NaN) scores the comparison is a linear order; we embed it
into `WithBot (WithTop ℚ)` and show the sort is a stable descending sort.
With NaN present the comparison is not even transitive and the placement of
NaN entries depends on their input position (the counterexample below).
-/

/-- Order-embedding of the non-NaN floats into `WithBot (WithTop ℚ)` (NaN
is mapped to junk; every use below excludes it by hypothesis). -/
def toL : PyFloat → WithBot (WithTop ℚ)
  | .ninf => ⊥
  | .pinf => ((⊤ : WithTop ℚ) : WithBot (WithTop ℚ))
  | .fin q => ((q : WithTop ℚ) : WithBot (WithTop ℚ))
  | .nan => ⊥

theorem pyLt_iff_toL {a b : PyFloat} (ha : a ≠ .nan) (hb : b ≠ .nan) :
    pyLt a b = true ↔ toL a < toL b := by
  cases a <;> cases b <;>
    simp_all [pyLt, toL, WithBot.coe_lt_coe, WithTop.coe_lt_coe, WithBot.bot_lt_coe,
      WithTop.coe_lt_top, lt_self_iff_false, not_lt_bot, not_top_lt] <;>
    exact WithBot.coe_lt_coe.mpr (WithTop.coe_lt_top _)

theorem pyLt_eq_false_iff {a b : PyFloat} (ha : a ≠ .nan) (hb : b ≠ .nan) :
    pyLt a b = false ↔ toL b ≤ toL a := by
  rw [Bool.eq_false_iff, Ne, pyLt_iff_toL ha hb, not_lt]

theorem pyLe_iff_toL {a b : PyFloat} (ha : a ≠ .nan) (hb : b ≠ .nan) :
    pyLe a b = true ↔ toL a ≤ toL b := by
  cases a <;> cases b <;>
    simp_all [pyLe, toL, WithBot.coe_le_coe, WithTop.coe_le_coe, le_refl,
      bot_le, le_top, WithBot.bot_lt_coe]

/-- Ascending sort-key order on scored pairs. -/
def ple (a b : String × PyFloat) : Prop :=
  toL a.2 ≤ toL b.2

/-- Strictly descending sort-key order on scored pairs. -/
def pgt (a b : String × PyFloat) : Prop :=
  toL b.2 < toL a.2

instance : IsTrans (String × PyFloat) ple :=
  ⟨fun _ _ _ h1 h2 => le_trans h1 h2⟩

instance : IsTrans (String × PyFloat) pgt :=
  ⟨fun _ _ _ h1 h2 => lt_trans h2 h1⟩

theorem chainB_le (l : List (String × PyFloat)) :
    (∀ x ∈ l, x.2 ≠ .nan) →
    List.Chain' (fun a b => scoreLt b a = false) l → List.Chain' ple l := by
  induction l with
  | nil => intro _ _; simp
  | cons a l ih =>
    intro hnn hc
    rw [List.chain'_cons'] at hc ⊢
    refine ⟨fun y hy => ?_,
      ih (fun x hx => hnn x (List.mem_cons_of_mem _ hx)) hc.2⟩
    have hym : y ∈ l := List.mem_of_mem_head? hy
    exact (pyLt_eq_false_iff (hnn y (List.mem_cons_of_mem _ hym))
      (hnn a (List.mem_cons_self _ _))).mp (hc.1 y hy)

theorem chainB_gt (l : List (String × PyFloat)) :
    (∀ x ∈ l, x.2 ≠ .nan) →
    List.Chain' (fun a b => scoreLt b a = true) l → List.Chain' pgt l := by
  induction l with
  | nil => intro _ _; simp
  | cons a l ih =>
    intro hnn hc
    rw [List.chain'_cons'] at hc ⊢
    refine ⟨fun y hy => ?_,
      ih (fun x hx => hnn x (List.mem_cons_of_mem _ hx)) hc.2⟩
    have hym : y ∈ l := List.mem_of_mem_head? hy
    exact (pyLt_iff_toL (hnn y (List.mem_cons_of_mem _ hym))
      (hnn a (List.mem_cons_self _ _))).mp (hc.1 y hy)

/-- A strictly-descending list has at most one entry per score, so its
score-class filters are unchanged by reversal (this is why CPython only
reverses *strictly* descending runs: it keeps the sort stable). -/
theorem pairwise_gt_filter_reverse (l : List (String × PyFloat))
    (hp : List.Pairwise pgt l) (v : PyFloat) :
    (l.filter fun x => decide (x.2 = v)).reverse = l.filter fun x => decide (x.2 = v) := by
  have hf : List.Pairwise pgt (l.filter fun x => decide (x.2 = v)) := hp.filter _
  match hh : l.filter fun x => decide (x.2 = v) with
  | [] => rw [hh]; rfl
  | [a] => rw [hh]; rfl
  | a :: b :: t =>
    exfalso
    rw [hh] at hf
    have hab : pgt a b := (List.pairwise_cons.mp hf).1 b (List.mem_cons_self _ _)
    have ha : a ∈ l.filter fun x => decide (x.2 = v) := by
      rw [hh]; exact List.mem_cons_self _ _
    have hb : b ∈ l.filter fun x => decide (x.2 = v) := by
      rw [hh]; exact List.mem_cons_of_mem _ (List.mem_cons_self _ _)
    have hav : a.2 = v := by simpa using (List.mem_filter.mp ha).2
    have hbv : b.2 = v := by simpa using (List.mem_filter.mp hb).2
    rw [pgt, hav, hbv] at hab
    exact lt_irrefl _ hab

/-- The binary search of `binarysort` on a sorted window of non-NaN keys
finds the rightmost insertion point: everything before it is `<=` the
pivot's key, everything from it on is strictly greater. -/
theorem bfind_spec (pivot : String × PyFloat) (xs : List (String × PyFloat))
    (hnx : ∀ x ∈ xs, x.2 ≠ .nan) (hnp : pivot.2 ≠ .nan)
    (hsort : List.Pairwise ple xs) :
    ∀ (fuel l r : ℕ), r ≤ xs.length → l ≤ r → r - l ≤ fuel →
      (∀ i, i < l → toL (xs.getD i default).2 ≤ toL pivot.2) →
      (∀ i, r ≤ i → i < xs.length → toL pivot.2 < toL (xs.getD i default).2) →
      bfind scoreLt pivot xs fuel l r ≤ xs.length ∧
      (∀ i, i < bfind scoreLt pivot xs fuel l r →
        toL (xs.getD i default).2 ≤ toL pivot.2) ∧
      (∀ i, bfind scoreLt pivot xs fuel l r ≤ i → i < xs.length →
        toL pivot.2 < toL (xs.getD i default).2) := by
  intro fuel
  induction fuel with
  | zero =>
    intro l r hr hlr hfuel inv1 inv2
    have hlr2 : l = r := by omega
    subst hlr2
    rw [bfind]
    exact ⟨le_trans hlr hr, inv1, fun i hi hilen => inv2 i hi hilen⟩
  | succ fuel ih =>
    intro l r hr hlr hfuel inv1 inv2
    rw [bfind]
    by_cases hlt : l < r
    · rw [if_pos hlt]
      have hpr : l + (r - l) / 2 < r := by omega
      have hpl : l ≤ l + (r - l) / 2 := by omega
      have hplen : l + (r - l) / 2 < xs.length := lt_of_lt_of_le hpr hr
      have hxmem : xs.getD (l + (r - l) / 2) default ∈ xs := by
        rw [getD_eq_getElem _ _ hplen]
        exact List.getElem_mem _
      have hnxp : (xs.getD (l + (r - l) / 2) default).2 ≠ .nan := hnx _ hxmem
      cases hcmp : scoreLt pivot (xs.getD (l + (r - l) / 2) default) with
      | true =>
        rw [if_pos rfl]
        apply ih l (l + (r - l) / 2) (le_of_lt hplen) hpl (by omega) inv1
        intro i hpi hilen
        by_cases hir : r ≤ i
        · exact inv2 i hir hilen
        · have hkey : toL pivot.2 < toL (xs.getD (l + (r - l) / 2) default).2 :=
            (pyLt_iff_toL hnp hnxp).mp hcmp
          have hple : toL (xs.getD (l + (r - l) / 2) default).2 ≤
              toL (xs.getD i default).2 := by
            rcases eq_or_lt_of_le hpi with he | hlt2
            · rw [← he]
            · have hpp := List.pairwise_iff_getElem.mp hsort
                (l + (r - l) / 2) i hplen hilen hlt2
              rw [getD_eq_getElem _ _ hplen, getD_eq_getElem _ _ hilen]
              exact hpp
          exact lt_of_lt_of_le hkey hple
      | false =>
        rw [if_neg Bool.false_ne_true]
        apply ih (l + (r - l) / 2 + 1) r hr (by omega) (by omega)
        · intro i hi
          by_cases hil : i < l
          · exact inv1 i hil
          · have hile : i ≤ l + (r - l) / 2 := by omega
            have hilen : i < xs.length := lt_of_le_of_lt hile hplen
            have h1 : toL (xs.getD i default).2 ≤
                toL (xs.getD (l + (r - l) / 2) default).2 := by
              rcases eq_or_lt_of_le hile with he | hlt2
              · rw [he]
              · have hpp := List.pairwise_iff_getElem.mp hsort
                  i (l + (r - l) / 2) hilen hplen hlt2
                rw [getD_eq_getElem _ _ hilen, getD_eq_getElem _ _ hplen]
                exact hpp
            have h2 : toL (xs.getD (l + (r - l) / 2) default).2 ≤ toL pivot.2 :=
              (pyLt_eq_false_iff hnp hnxp).mp hcmp
            exact le_trans h1 h2
        · exact inv2
    · rw [if_neg hlt]
      have hlr2 : l = r := by omega
      exact ⟨le_trans hlr hr, inv1, fun i hi hilen => inv2 i (by omega) hilen⟩

/-- One binary insertion of a non-NaN entry into a sorted non-NaN list:
the result is sorted and each score-class filter grows by exactly the
pivot, appended *after* the equal-score entries (stability). -/
theorem binInsert_spec (xs : List (String × PyFloat)) (pivot : String × PyFloat)
    (hnx : ∀ x ∈ xs, x.2 ≠ .nan) (hnp : pivot.2 ≠ .nan)
    (hsort : List.Pairwise ple xs) :
    List.Pairwise ple (binInsert scoreLt xs pivot) ∧
    (∀ x ∈ binInsert scoreLt xs pivot, x.2 ≠ .nan) ∧
    (∀ v : PyFloat,
      (binInsert scoreLt xs pivot).filter (fun x => decide (x.2 = v)) =
        if pivot.2 = v then (xs.filter fun x => decide (x.2 = v)) ++ [pivot]
        else xs.filter fun x => decide (x.2 = v)) := by
  obtain ⟨hlen, hbelow, habove⟩ :=
    bfind_spec pivot xs hnx hnp hsort xs.length 0 xs.length le_rfl (Nat.zero_le _)
      (by omega) (fun i hi => absurd hi (Nat.not_lt_zero i))
      (fun i hi hilen => absurd hilen (by omega))
  have hbi : binInsert scoreLt xs pivot =
      xs.take (bfind scoreLt pivot xs xs.length 0 xs.length) ++
        pivot :: xs.drop (bfind scoreLt pivot xs xs.length 0 xs.length) := rfl
  have htake : ∀ a ∈ xs.take (bfind scoreLt pivot xs xs.length 0 xs.length),
      toL a.2 ≤ toL pivot.2 := by
    intro a ha
    obtain ⟨i, hi, hie⟩ := List.mem_iff_getElem.mp ha
    have hi2 : i < bfind scoreLt pivot xs xs.length 0 xs.length := by
      have := hi
      rw [List.length_take] at this
      omega
    have hilen : i < xs.length := by
      have := hi
      rw [List.length_take] at this
      omega
    have := hbelow i hi2
    rw [getD_eq_getElem _ _ hilen] at this
    rw [← hie, List.getElem_take]
    exact this
  have hdrop : ∀ b ∈ xs.drop (bfind scoreLt pivot xs xs.length 0 xs.length),
      toL pivot.2 < toL b.2 := by
    intro b hb
    obtain ⟨j, hj, hje⟩ := List.mem_iff_getElem.mp hb
    have hjlen : bfind scoreLt pivot xs xs.length 0 xs.length + j < xs.length := by
      have := hj
      rw [List.length_drop] at this
      omega
    have := habove (bfind scoreLt pivot xs xs.length 0 xs.length + j)
      (Nat.le_add_right _ _) hjlen
    rw [getD_eq_getElem _ _ hjlen] at this
    rw [← hje, List.getElem_drop]
    exact this
  refine ⟨?_, ?_, ?_⟩
  · rw [hbi, List.pairwise_append]
    refine ⟨List.Pairwise.sublist (List.take_sublist _ _) hsort, ?_, ?_⟩
    · rw [List.pairwise_cons]
      exact ⟨fun b hb => le_of_lt (hdrop b hb),
        List.Pairwise.sublist (List.drop_sublist _ _) hsort⟩
    · intro a ha b hb
      rcases List.mem_cons.mp hb with hbp | hbd
      · subst hbp
        exact htake a ha
      · exact le_trans (htake a ha) (le_of_lt (hdrop b hbd))
  · rw [hbi]
    intro x hx
    rcases List.mem_append.mp hx with hx1 | hx2
    · exact hnx x (List.take_subset _ _ hx1)
    · rcases List.mem_cons.mp hx2 with hxp | hxd
      · subst hxp
        exact hnp
      · exact hnx x (List.drop_subset _ _ hxd)
  · intro v
    rw [hbi, List.filter_append, List.filter_cons]
    by_cases hv : pivot.2 = v
    · rw [if_pos hv]
      have hdnil : (xs.drop (bfind scoreLt pivot xs xs.length 0 xs.length)).filter
          (fun x => decide (x.2 = v)) = [] := by
        rw [List.filter_eq_nil_iff]
        intro b hb
        simp only [decide_eq_true_eq]
        intro hbv
        have := hdrop b hb
        rw [hbv, ← hv] at this
        exact lt_irrefl _ this
      rw [if_pos (by simp [hv]), hdnil]
      conv_rhs => rw [← List.take_append_drop
        (bfind scoreLt pivot xs xs.length 0 xs.length) xs]
      rw [List.filter_append, hdnil]
      simp
    · rw [if_neg hv, if_neg (by simp [hv])]
      conv_rhs => rw [← List.take_append_drop
        (bfind scoreLt pivot xs xs.length 0 xs.length) xs]
      rw [List.filter_append]

/-- `binarysort` extends a sorted run, keeping every score-class filter in
input order: run classes first, then the inserted elements in arrival
order. -/
theorem binarysort_spec :
    ∀ (rest run : List (String × PyFloat)),
      (∀ x ∈ run, x.2 ≠ .nan) → (∀ x ∈ rest, x.2 ≠ .nan) →
      List.Pairwise ple run →
      List.Pairwise ple (binarysort scoreLt run rest) ∧
      (∀ x ∈ binarysort scoreLt run rest, x.2 ≠ .nan) ∧
      (∀ v : PyFloat,
        (binarysort scoreLt run rest).filter (fun x => decide (x.2 = v)) =
          (run.filter fun x => decide (x.2 = v)) ++
            rest.filter fun x => decide (x.2 = v))
  | [], run, hnr, _, hsort => ⟨hsort, hnr, fun v => by simp [binarysort]⟩
  | x :: rest, run, hnr, hns, hsort => by
    have hnp : x.2 ≠ .nan := hns x (List.mem_cons_self _ _)
    obtain ⟨hs1, hn1, hf1⟩ := binInsert_spec run x hnr hnp hsort
    have hstep : binarysort scoreLt run (x :: rest) =
        binarysort scoreLt (binInsert scoreLt run x) rest := rfl
    obtain ⟨hs2, hn2, hf2⟩ := binarysort_spec rest (binInsert scoreLt run x) hn1
      (fun y hy => hns y (List.mem_cons_of_mem _ hy)) hs1
    rw [hstep]
    refine ⟨hs2, hn2, fun v => ?_⟩
    rw [hf2 v, hf1 v, List.filter_cons]
    by_cases hv : x.2 = v
    · rw [if_pos hv, if_pos (by simp [hv])]
      simp
    · rw [if_neg hv, if_neg (by simp [hv])]

theorem ascRun_append {α : Type} (lt : α → α → Bool) (prev : α) (t : List α) :
    (ascRun lt prev t).1 ++ (ascRun lt prev t).2 = prev :: t := by
  induction t generalizing prev with
  | nil => rfl
  | cons c t ih =>
    rw [ascRun]
    by_cases h : lt c prev
    · rw [if_pos h]
      rfl
    · rw [if_neg h]
      rw [show ((prev :: (ascRun lt c t).1, (ascRun lt c t).2) :
          List α × List α).1 = prev :: (ascRun lt c t).1 from rfl]
      rw [List.cons_append, ih c]

theorem descRun_append {α : Type} (lt : α → α → Bool) (prev : α) (t : List α) :
    (descRun lt prev t).1 ++ (descRun lt prev t).2 = prev :: t := by
  induction t generalizing prev with
  | nil => rfl
  | cons c t ih =>
    rw [descRun]
    by_cases h : lt c prev
    · rw [if_pos h]
      rw [show ((prev :: (descRun lt c t).1, (descRun lt c t).2) :
          List α × List α).1 = prev :: (descRun lt c t).1 from rfl]
      rw [List.cons_append, ih c]
    · rw [if_neg h]
      rfl

theorem ascRun_head {α : Type} (lt : α → α → Bool) (prev : α) (t : List α) :
    (ascRun lt prev t).1.head? = some prev := by
  cases t with
  | nil => rfl
  | cons c t =>
    rw [ascRun]
    by_cases h : lt c prev
    · rw [if_pos h]
      rfl
    · rw [if_neg h]
      rfl

theorem descRun_head {α : Type} (lt : α → α → Bool) (prev : α) (t : List α) :
    (descRun lt prev t).1.head? = some prev := by
  cases t with
  | nil => rfl
  | cons c t =>
    rw [descRun]
    by_cases h : lt c prev
    · rw [if_pos h]
      rfl
    · rw [if_neg h]
      rfl

theorem ascRun_chain {α : Type} (lt : α → α → Bool) (prev : α) (t : List α) :
    List.Chain' (fun a b => lt b a = false) (ascRun lt prev t).1 := by
  induction t generalizing prev with
  | nil => simp [ascRun]
  | cons c t ih =>
    rw [ascRun]
    by_cases h : lt c prev
    · rw [if_pos h]
      simp
    · rw [if_neg h]
      rw [show ((prev :: (ascRun lt c t).1, (ascRun lt c t).2) :
          List α × List α).1 = prev :: (ascRun lt c t).1 from rfl]
      rw [List.chain'_cons']
      refine ⟨fun y hy => ?_, ih c⟩
      rw [ascRun_head lt c t, Option.mem_some_iff] at hy
      subst hy
      simpa using h

theorem descRun_chain {α : Type} (lt : α → α → Bool) (prev : α) (t : List α) :
    List.Chain' (fun a b => lt b a = true) (descRun lt prev t).1 := by
  induction t generalizing prev with
  | nil => simp [descRun]
  | cons c t ih =>
    rw [descRun]
    by_cases h : lt c prev
    · rw [if_pos h]
      rw [show ((prev :: (descRun lt c t).1, (descRun lt c t).2) :
          List α × List α).1 = prev :: (descRun lt c t).1 from rfl]
      rw [List.chain'_cons']
      refine ⟨fun y hy => ?_, ih c⟩
      rw [descRun_head lt c t, Option.mem_some_iff] at hy
      subst hy
      exact h
    · rw [if_neg h]
      simp

/-- `count_run`: the initial run is sorted (for non-NaN keys), uses up a
prefix of the input, and — because a descending run is *strictly*
descending — has the same score-class filters as that prefix. -/
theorem count_run_spec (l : List (String × PyFloat)) (hnn : ∀ x ∈ l, x.2 ≠ .nan) :
    ∃ pre : List (String × PyFloat),
      l = pre ++ (count_run scoreLt l).2 ∧
      List.Pairwise ple (count_run scoreLt l).1 ∧
      (∀ x ∈ (count_run scoreLt l).1, x.2 ≠ .nan) ∧
      (∀ v : PyFloat,
        ((count_run scoreLt l).1.filter fun x => decide (x.2 = v)) =
          pre.filter fun x => decide (x.2 = v)) := by
  match l with
  | [] =>
    exact ⟨[], rfl, by simp [count_run], by simp [count_run], fun v => rfl⟩
  | [a] =>
    refine ⟨[a], by simp [count_run], by simp [count_run], ?_, fun v => rfl⟩
    simpa [count_run] using hnn
  | a :: b :: t =>
    by_cases h : scoreLt b a
    · -- strictly descending initial run, reversed
      have hsplit : a :: b :: t = (a :: (descRun scoreLt b t).1) ++
          (descRun scoreLt b t).2 := by
        rw [List.cons_append, descRun_append]
      have hrun1 : (count_run scoreLt (a :: b :: t)).1 =
          (a :: (descRun scoreLt b t).1).reverse := by
        rw [count_run, if_pos h]
      have hrun2 : (count_run scoreLt (a :: b :: t)).2 =
          (descRun scoreLt b t).2 := by
        rw [count_run, if_pos h]
      have hmem : ∀ x ∈ a :: (descRun scoreLt b t).1, x.2 ≠ .nan := by
        intro x hx
        exact hnn x (hsplit ▸ List.mem_append_left _ hx)
      have hchain : List.Chain' (fun x y => scoreLt y x = true)
          (a :: (descRun scoreLt b t).1) := by
        rw [List.chain'_cons']
        refine ⟨fun y hy => ?_, descRun_chain scoreLt b t⟩
        rw [descRun_head scoreLt b t, Option.mem_some_iff] at hy
        subst hy
        exact h
      have hpgt : List.Pairwise pgt (a :: (descRun scoreLt b t).1) :=
        List.chain'_iff_pairwise.mp (chainB_gt _ hmem hchain)
      refine ⟨a :: (descRun scoreLt b t).1, by rw [hrun2]; exact hsplit, ?_, ?_, ?_⟩
      · rw [hrun1, List.pairwise_reverse]
        exact hpgt.imp_of_mem fun _ _ hr => le_of_lt hr
      · intro x hx
        rw [hrun1, List.mem_reverse] at hx
        exact hmem x hx
      · intro v
        rw [hrun1, List.filter_reverse, pairwise_gt_filter_reverse _ hpgt]
    · -- ascending initial run, kept in place
      have hsplit : a :: b :: t = (a :: (ascRun scoreLt b t).1) ++
          (ascRun scoreLt b t).2 := by
        rw [List.cons_append, ascRun_append]
      have hrun1 : (count_run scoreLt (a :: b :: t)).1 =
          a :: (ascRun scoreLt b t).1 := by
        rw [count_run, if_neg h]
      have hrun2 : (count_run scoreLt (a :: b :: t)).2 =
          (ascRun scoreLt b t).2 := by
        rw [count_run, if_neg h]
      have hmem : ∀ x ∈ a :: (ascRun scoreLt b t).1, x.2 ≠ .nan := by
        intro x hx
        exact hnn x (hsplit ▸ List.mem_append_left _ hx)
      have hchain : List.Chain' (fun x y => scoreLt y x = false)
          (a :: (ascRun scoreLt b t).1) := by
        rw [List.chain'_cons']
        refine ⟨fun y hy => ?_, ascRun_chain scoreLt b t⟩
        rw [ascRun_head scoreLt b t, Option.mem_some_iff] at hy
        subst hy
        simpa using h
      refine ⟨a :: (ascRun scoreLt b t).1, by rw [hrun2]; exact hsplit, ?_, ?_, ?_⟩
      · rw [hrun1]
        exact List.chain'_iff_pairwise.mp (chainB_le _ hmem hchain)
      · intro x hx
        rw [hrun1] at hx
        exact hmem x hx
      · intro v
        rw [hrun1]

/-- `timsortLow` (for all-defined keys) sorts ascending and preserves every
score-class filter — it is a stable ascending sort. -/
theorem timsortLow_spec (l : List (String × PyFloat)) (hnn : ∀ x ∈ l, x.2 ≠ .nan) :
    List.Pairwise ple (timsortLow scoreLt l) ∧
    (∀ x ∈ timsortLow scoreLt l, x.2 ≠ .nan) ∧
    (∀ v : PyFloat,
      ((timsortLow scoreLt l).filter fun x => decide (x.2 = v)) =
        l.filter fun x => decide (x.2 = v)) := by
  obtain ⟨pre, hsplit, hsort, hnnrun, hfrun⟩ := count_run_spec l hnn
  have hnnrest : ∀ x ∈ (count_run scoreLt l).2, x.2 ≠ .nan := fun x hx =>
    hnn x (hsplit ▸ List.mem_append_right _ hx)
  obtain ⟨hs, hn, hf⟩ :=
    binarysort_spec (count_run scoreLt l).2 (count_run scoreLt l).1 hnnrun hnnrest hsort
  refine ⟨hs, hn, fun v => ?_⟩
  rw [show timsortLow scoreLt l =
    binarysort scoreLt (count_run scoreLt l).1 (count_run scoreLt l).2 from rfl]
  rw [hf v, hfrun v, ← List.filter_append, ← hsplit]

theorem binInsert_perm {α : Type} [Inhabited α] (lt : α → α → Bool) (xs : List α)
    (pivot : α) : List.Perm (binInsert lt xs pivot) (pivot :: xs) := by
  have h := @List.perm_middle _ pivot
    (xs.take (bfind lt pivot xs xs.length 0 xs.length))
    (xs.drop (bfind lt pivot xs xs.length 0 xs.length))
  rw [List.take_append_drop] at h
  exact h

theorem binarysort_perm {α : Type} [Inhabited α] (lt : α → α → Bool) :
    ∀ (rest run : List α), List.Perm (binarysort lt run rest) (run ++ rest)
  | [], run => by simp [binarysort]
  | x :: rest, run => by
    have hstep : binarysort lt run (x :: rest) =
        binarysort lt (binInsert lt run x) rest := rfl
    rw [hstep]
    have h1 : List.Perm (binarysort lt (binInsert lt run x) rest)
        (binInsert lt run x ++ rest) := binarysort_perm lt rest _
    have h2 : List.Perm (binInsert lt run x ++ rest) ((x :: run) ++ rest) :=
      (binInsert_perm lt run x).append_right rest
    have h3 : List.Perm ((x :: run) ++ rest) (run ++ x :: rest) :=
      List.perm_middle.symm
    exact (h1.trans h2).trans h3

theorem count_run_perm {α : Type} (lt : α → α → Bool) (l : List α) :
    List.Perm ((count_run lt l).1 ++ (count_run lt l).2) l := by
  match l with
  | [] => simp [count_run]
  | [a] => simp [count_run]
  | a :: b :: t =>
    by_cases h : lt b a
    · rw [count_run, if_pos h]
      have h1 : List.Perm ((a :: (descRun lt b t).1).reverse ++ (descRun lt b t).2)
          ((a :: (descRun lt b t).1) ++ (descRun lt b t).2) :=
        (List.reverse_perm _).append_right _
      have h2 : (a :: (descRun lt b t).1) ++ (descRun lt b t).2 = a :: b :: t := by
        rw [List.cons_append, descRun_append]
      rw [h2] at h1
      exact h1
    · rw [count_run, if_neg h]
      rw [show ((a :: (ascRun lt b t).1, (ascRun lt b t).2) :
          List α × List α).1 = a :: (ascRun lt b t).1 from rfl]
      rw [show ((a :: (ascRun lt b t).1, (ascRun lt b t).2) :
          List α × List α).2 = (ascRun lt b t).2 from rfl]
      rw [List.cons_append, ascRun_append]

theorem pysortedRev_perm {α : Type} [Inhabited α] (lt : α → α → Bool) (l : List α) :
    List.Perm (pysortedRev lt l) l := by
  refine (List.reverse_perm _).trans ?_
  refine ((binarysort_perm lt (count_run lt l.reverse).2 (count_run lt l.reverse).1).trans
    ?_).trans (List.reverse_perm l)
  exact count_run_perm lt l.reverse

/-- C2 (amended): the ranking is a permutation of the scored entries; for
all-defined (non-NaN) scores it is ordered by score descending and every
score class keeps its original input order (stable ties).  (An undefined
score need not sort last — see the counterexample.) -/
theorem C2_ranking_stable (l : List (String × PyFloat))
    (hnn : ∀ x ∈ l, x.2 ≠ .nan) :
    List.Perm (rankRisk l) l ∧
    List.Pairwise (fun a b => pyLe b.2 a.2 = true) (rankRisk l) ∧
    ∀ v : PyFloat,
      ((rankRisk l).filter fun x => decide (x.2 = v)) =
        l.filter fun x => decide (x.2 = v) := by
  have hnnrev : ∀ x ∈ l.reverse, x.2 ≠ .nan := by simpa using hnn
  obtain ⟨hsort, hnns, hfil⟩ := timsortLow_spec l.reverse hnnrev
  have hperm : List.Perm (rankRisk l) l := pysortedRev_perm scoreLt l
  refine ⟨hperm, ?_, fun v => ?_⟩
  · rw [show rankRisk l = (timsortLow scoreLt l.reverse).reverse from rfl,
      List.pairwise_reverse]
    exact hsort.imp_of_mem fun ha hb hr =>
      (pyLe_iff_toL (hnns _ ha) (hnns _ hb)).mpr hr
  · rw [show rankRisk l = (timsortLow scoreLt l.reverse).reverse from rfl,
      List.filter_reverse, hfil v, List.filter_reverse, List.reverse_reverse]

/-- C2 witness: a concrete all-defined input with a tie, ranked stably. -/
theorem C2_ranking_stable_witness :
    List.Perm (rankRisk [("A", .fin 5), ("B", .fin 10), ("D", .fin 10)])
      [("A", .fin 5), ("B", .fin 10), ("D", .fin 10)] ∧
    ((rankRisk [("A", .fin 5), ("B", .fin 10), ("D", .fin 10)]).filter
        fun x => decide (x.2 = .fin 10)) =
      ([("A", .fin 5), ("B", .fin 10), ("D", .fin 10)].filter
        fun x => decide (x.2 = .fin 10)) :=
  ⟨(C2_ranking_stable [("A", .fin 5), ("B", .fin 10), ("D", .fin 10)] (by decide)).1,
   (C2_ranking_stable [("A", .fin 5), ("B", .fin 10), ("D", .fin 10)]
     (by decide)).2.2 (.fin 10)⟩

/-!
### C7: month-end resampling is idempotent
-/

theorem monthEnd_monthEnd (dt : Date) : monthEnd (monthEnd dt) = monthEnd dt := rfl

theorem resampleME_cons_nil (dt : Date) (p : PyFloat) (l : Series)
    (h : resampleME l = []) : resampleME ((dt, p) :: l) = [(monthEnd dt, p)] := by
  rw [resampleME, h]

theorem resampleME_cons_cons (dt : Date) (p : PyFloat) (l : Series) (dt2 : Date)
    (p2 : PyFloat) (tail : Series) (h : resampleME l = (dt2, p2) :: tail) :
    resampleME ((dt, p) :: l) =
      if dt.y = dt2.y ∧ dt.m = dt2.m then (dt2, p2) :: tail
      else (monthEnd dt, p) :: (dt2, p2) :: tail := by
  rw [resampleME, h]

/-- Shape invariant of `resampleME` output: every date is a month-end date
and consecutive entries lie in distinct months. -/
def MEShape (l : Series) : Prop :=
  (∀ x ∈ l, x.1 = monthEnd x.1) ∧
  List.Chain' (fun a b => ¬(a.1.y = b.1.y ∧ a.1.m = b.1.m)) l

theorem resampleME_shape (l : Series) : MEShape (resampleME l) := by
  induction l with
  | nil => exact ⟨by simp [resampleME], by simp [resampleME]⟩
  | cons hd tl ih =>
    obtain ⟨dt, p⟩ := hd
    cases h : resampleME tl with
    | nil =>
      rw [resampleME_cons_nil dt p tl h]
      refine ⟨?_, by simp⟩
      intro x hx
      simp only [List.mem_singleton] at hx
      subst hx
      exact (monthEnd_monthEnd dt).symm
    | cons hd2 tail =>
      obtain ⟨dt2, p2⟩ := hd2
      rw [h] at ih
      rw [resampleME_cons_cons dt p tl dt2 p2 tail h]
      by_cases hm : dt.y = dt2.y ∧ dt.m = dt2.m
      · rw [if_pos hm]
        exact ih
      · rw [if_neg hm]
        refine ⟨?_, ?_⟩
        · intro x hx
          rcases List.mem_cons.mp hx with h1 | h2
          · subst h1
            exact (monthEnd_monthEnd dt).symm
          · exact ih.1 x h2
        · rw [List.chain'_cons]
          exact ⟨by simpa [monthEnd] using hm, ih.2⟩

theorem resampleME_fixed (l : Series) (h : MEShape l) : resampleME l = l := by
  induction l with
  | nil => rfl
  | cons hd tl ih =>
    obtain ⟨dt, p⟩ := hd
    have hfix : dt = monthEnd dt := h.1 (dt, p) (List.mem_cons_self _ _)
    have htl : MEShape tl :=
      ⟨fun x hx => h.1 x (List.mem_cons_of_mem _ hx), h.2.tail⟩
    cases tl with
    | nil =>
      rw [resampleME_cons_nil dt p [] (by rfl), ← hfix]
    | cons hd2 t2 =>
      obtain ⟨dt2, p2⟩ := hd2
      have hne : ¬(dt.y = dt2.y ∧ dt.m = dt2.m) := (List.chain'_cons.mp h.2).1
      rw [resampleME_cons_cons dt p _ dt2 p2 t2 (ih htl), if_neg hne, ← hfix]

theorem resampleME_idem (l : Series) : resampleME (resampleME l) = resampleME l :=
  resampleME_fixed _ (resampleME_shape l)

theorem resampleME_notNan (l : Series) (h : ∀ x ∈ l, x.2.isNan = false) :
    ∀ x ∈ resampleME l, x.2.isNan = false := by
  induction l with
  | nil => simp [resampleME]
  | cons hd tl ih =>
    obtain ⟨dt, p⟩ := hd
    have htl : ∀ x ∈ tl, x.2.isNan = false :=
      fun x hx => h x (List.mem_cons_of_mem _ hx)
    have hp : p.isNan = false := h (dt, p) (List.mem_cons_self _ _)
    cases hres : resampleME tl with
    | nil =>
      rw [resampleME_cons_nil dt p tl hres]
      intro x hx
      simp only [List.mem_singleton] at hx
      subst hx
      exact hp
    | cons hd2 tail =>
      obtain ⟨dt2, p2⟩ := hd2
      have ih2 := ih htl
      rw [hres] at ih2
      rw [resampleME_cons_cons dt p tl dt2 p2 tail hres]
      by_cases hm : dt.y = dt2.y ∧ dt.m = dt2.m
      · rw [if_pos hm]
        exact ih2
      · rw [if_neg hm]
        intro x hx
        rcases List.mem_cons.mp hx with h1 | h2
        · subst h1
          exact hp
        · exact ih2 x h2

theorem resampleME_ne_nil (l : Series) (h : l ≠ []) : resampleME l ≠ [] := by
  cases l with
  | nil => exact absurd rfl h
  | cons hd tl =>
    obtain ⟨dt, p⟩ := hd
    cases hres : resampleME tl with
    | nil =>
      rw [resampleME_cons_nil dt p tl hres]
      simp
    | cons hd2 tail =>
      obtain ⟨dt2, p2⟩ := hd2
      rw [resampleME_cons_cons dt p tl dt2 p2 tail hres]
      by_cases hm : dt.y = dt2.y ∧ dt.m = dt2.m
      · rw [if_pos hm]
        simp
      · rw [if_neg hm]
        simp

theorem dropna_notNan (l : Series) : ∀ x ∈ dropna l, x.2.isNan = false := by
  intro x hx
  have := List.of_mem_filter hx
  simpa using this

theorem dropna_eq_self (l : Series) (h : ∀ x ∈ l, x.2.isNan = false) : dropna l = l :=
  List.filter_eq_self.mpr fun a ha => by simp [h a ha]

/-- C7: resampling an already month-end series yields it unchanged —
`month_end_series` is idempotent on (date-ascending) daily series. -/
theorem C7_resample_idempotent (s : Series)
    (hs : List.Chain' (fun a b : Date × PyFloat => dateLt a.1 b.1) s) :
    month_end_series (month_end_series s) = month_end_series s := by
  clear hs
  by_cases h : (dropna s).isEmpty
  · have h0 : dropna s = [] := by simpa using h
    have h1 : month_end_series s = [] := by
      rw [month_end_series]
      simp [h0]
    rw [h1, month_end_series]
    simp [dropna]
  · have h0 : dropna s ≠ [] := by simpa using h
    have hnn : ∀ x ∈ resampleME (dropna s), x.2.isNan = false :=
      resampleME_notNan _ (dropna_notNan s)
    have h2 : dropna (resampleME (dropna s)) = resampleME (dropna s) :=
      dropna_eq_self _ hnn
    have h1 : month_end_series s = resampleME (dropna s) := by
      rw [month_end_series]
      simp only [h, if_false]
      exact h2
    have h4 : (resampleME (dropna s)).isEmpty = false := by
      cases hres : resampleME (dropna s) with
      | nil => exact absurd hres (resampleME_ne_nil _ h0)
      | cons a l => rfl
    rw [h1, month_end_series]
    simp only [h2, h4, if_false]
    simp [resampleME_idem, h2]

/-- C7 witness: idempotence at a concrete daily series with NaNs and
several observations per month. -/
theorem C7_resample_idempotent_witness :
    month_end_series (month_end_series dailyA) = month_end_series dailyA :=
  C7_resample_idempotent dailyA (by simp [dailyA, List.chain'_cons, dateLt])

/-- C3 counterexample: a run whose top-ranked risk asset has an undefined
(NaN) score does not abort — it completes and produces a risk-off decision
selecting the safe haven. -/
theorem C3_counterexample :
    (metricsOf (month_end_series seriesA)).score = .nan ∧
    reportChoice (mainModel cfgA fetchA "2026-10-12 00:00") = some "BONDS" := by
  refine ⟨by decide, by decide⟩

/-!
### C9: fatal outcomes vs the produced report, and C3 amended
-/

/-- A configured asset whose fetch succeeds and resamples to a non-empty
month-end series. -/
def goodFetchB (fetch : String → Option Series) (nt : String × String) : Bool :=
  match fetch nt.2 with
  | none => false
  | some s => !(month_end_series s).isEmpty

/-- No fatal condition holds: some tickers, some risk assets, the safe
haven is configured, every configured asset fetches and resamples to data,
and every risk asset is a configured ticker. -/
def goodRun (cfg : Config) (fetch : String → Option Series) : Prop :=
  cfg.tickers ≠ [] ∧ cfg.risk_assets ≠ [] ∧
  (List.lookup cfg.bonds_name cfg.tickers).isSome = true ∧
  (∀ nt ∈ cfg.tickers, goodFetchB fetch nt = true) ∧
  (∀ n ∈ cfg.risk_assets, (List.lookup n cfg.tickers).isSome = true)

theorem fetchAll_cons_none (fetch : String → Option Series) (name tk : String)
    (rest : List (String × String)) (h : fetch tk = none) :
    fetchAll fetch ((name, tk) :: rest) = .error (.noData name) := by
  rw [fetchAll, h]

theorem fetchAll_cons_some (fetch : String → Option Series) (name tk : String)
    (rest : List (String × String)) (s : Series) (h : fetch tk = some s) :
    fetchAll fetch ((name, tk) :: rest) =
      if (month_end_series s).isEmpty then .error (.noMonthEnd name)
      else (fetchAll fetch rest).map fun r => (name, month_end_series s) :: r := by
  rw [fetchAll, h]

theorem fetchAll_ok_iff (fetch : String → Option Series) :
    ∀ ts : List (String × String),
      (∃ m, fetchAll fetch ts = .ok m) ↔ ∀ nt ∈ ts, goodFetchB fetch nt = true
  | [] => by simp [fetchAll]
  | (name, tk) :: rest => by
    rw [List.forall_mem_cons]
    cases hf : fetch tk with
    | none =>
      rw [fetchAll_cons_none fetch name tk rest hf]
      simp [goodFetchB, hf]
    | some s =>
      rw [fetchAll_cons_some fetch name tk rest s hf]
      by_cases hme : (month_end_series s).isEmpty
      · rw [if_pos hme]
        simp [goodFetchB, hf, hme]
      · rw [if_neg hme]
        have hmap : (∃ m, ((fetchAll fetch rest).map
            fun r => (name, month_end_series s) :: r) =
              (.ok m : Except Err (List (String × Series)))) ↔
            ∃ r, fetchAll fetch rest = .ok r := by
          cases fetchAll fetch rest <;> simp [Except.map]
        rw [hmap, fetchAll_ok_iff fetch rest]
        simp [goodFetchB, hf, hme]

theorem fetchAll_ok_names (fetch : String → Option Series) :
    ∀ (ts : List (String × String)) (m : List (String × Series)),
      fetchAll fetch ts = .ok m → m.map Prod.fst = ts.map Prod.fst
  | [], m => by
    intro h
    rw [fetchAll] at h
    injection h with h2
    subst h2
    rfl
  | (name, tk) :: rest, m => by
    intro h
    cases hf : fetch tk with
    | none =>
      rw [fetchAll_cons_none fetch name tk rest hf] at h
      exact absurd h (by simp)
    | some s =>
      rw [fetchAll_cons_some fetch name tk rest s hf] at h
      by_cases hme : (month_end_series s).isEmpty
      · rw [if_pos hme] at h
        exact absurd h (by simp)
      · rw [if_neg hme] at h
        cases hrec : fetchAll fetch rest with
        | error e =>
          rw [hrec] at h
          exact absurd h (by simp [Except.map])
        | ok r =>
          rw [hrec] at h
          simp only [Except.map] at h
          injection h with h2
          subst h2
          rw [List.map_cons, List.map_cons, fetchAll_ok_names fetch rest r hrec]

theorem lookupScores_cons_none (details : List (String × Metrics)) (n : String)
    (rest : List String) (h : List.lookup n details = none) :
    lookupScores details (n :: rest) = .error (.keyError n) := by
  rw [lookupScores, h]

theorem lookupScores_cons_some (details : List (String × Metrics)) (n : String)
    (rest : List String) (m : Metrics) (h : List.lookup n details = some m) :
    lookupScores details (n :: rest) =
      (lookupScores details rest).map fun r => (n, m.score) :: r := by
  rw [lookupScores, h]

theorem lookupScores_ok_iff (details : List (String × Metrics)) :
    ∀ ns : List String,
      (∃ s, lookupScores details ns = .ok s) ↔
        ∀ n ∈ ns, (List.lookup n details).isSome = true
  | [] => by simp [lookupScores]
  | n :: rest => by
    rw [List.forall_mem_cons]
    cases hl : List.lookup n details with
    | none =>
      rw [lookupScores_cons_none details n rest hl]
      simp [hl]
    | some m =>
      rw [lookupScores_cons_some details n rest m hl]
      have hmap : (∃ s, ((lookupScores details rest).map fun r => (n, m.score) :: r) =
            (.ok s : Except Err (List (String × PyFloat)))) ↔
          ∃ r, lookupScores details rest = .ok r := by
        cases lookupScores details rest <;> simp [Except.map]
      rw [hmap, lookupScores_ok_iff details rest]
      simp [hl]

theorem lookupScores_ok_length (details : List (String × Metrics)) :
    ∀ (ns : List String) (s : List (String × PyFloat)),
      lookupScores details ns = .ok s → s.length = ns.length
  | [], s => by
    intro h
    rw [lookupScores] at h
    injection h with h2
    subst h2
    rfl
  | n :: rest, s => by
    intro h
    cases hl : List.lookup n details with
    | none =>
      rw [lookupScores_cons_none details n rest hl] at h
      exact absurd h (by simp)
    | some m =>
      rw [lookupScores_cons_some details n rest m hl] at h
      cases hrec : lookupScores details rest with
      | error e =>
        rw [hrec] at h
        exact absurd h (by simp [Except.map])
      | ok r =>
        rw [hrec] at h
        simp only [Except.map] at h
        injection h with h2
        subst h2
        simp [lookupScores_ok_length details rest r hrec]

theorem lookup_map_isSome (monthly : List (String × Series)) (n : String) :
    (List.lookup n (monthly.map fun x => (x.1, metricsOf x.2))).isSome =
      (List.lookup n monthly).isSome := by
  induction monthly with
  | nil => rfl
  | cons x rest ih =>
    obtain ⟨a, s⟩ := x
    rw [List.map_cons]
    cases hk : (n == a) <;> simp [List.lookup_cons, hk, ih]

theorem lookup_isSome_keys (n : String) :
    ∀ (l1 : List (String × Series)) (l2 : List (String × String)),
      l1.map Prod.fst = l2.map Prod.fst →
      (List.lookup n l1).isSome = (List.lookup n l2).isSome
  | [], [] => fun _ => rfl
  | [], y :: r2 => by intro h; simp at h
  | x :: r1, [] => by intro h; simp at h
  | x :: r1, y :: r2 => by
    intro h
    obtain ⟨a, s⟩ := x
    obtain ⟨b, tk⟩ := y
    simp only [List.map_cons, List.cons.injEq] at h
    obtain ⟨hab, hrest⟩ := h
    subst hab
    cases hk : (n == a) <;>
      simp [List.lookup_cons, hk, lookup_isSome_keys n r1 r2 hrest]

theorem rankRisk_ne_nil (scored : List (String × PyFloat)) (h : scored ≠ []) :
    rankRisk scored ≠ [] := by
  intro hnil
  have hlen := (pysortedRev_perm scoreLt scored).length_eq
  rw [show pysortedRev scoreLt scored = rankRisk scored from rfl, hnil] at hlen
  exact h (List.length_eq_zero.mp hlen.symm)

theorem mainModel_checks_ok (cfg : Config) (fetch : String → Option Series)
    (now_local : String) (h1 : cfg.tickers.isEmpty = false)
    (h2 : cfg.risk_assets.isEmpty = false)
    (h3 : (List.lookup cfg.bonds_name cfg.tickers).isNone = false) :
    mainModel cfg fetch now_local =
      match fetchAll fetch cfg.tickers with
      | .error e => .error e
      | .ok monthly => afterFetch cfg now_local monthly := by
  rw [mainModel, if_neg (by simp [h1]), if_neg (by simp [h2]), if_neg (by simp [h3])]

theorem afterFetch_err (cfg : Config) (now_local : String)
    (monthly : List (String × Series)) (e : Err)
    (h : lookupScores (monthly.map fun x => (x.1, metricsOf x.2)) cfg.risk_assets =
      .error e) : afterFetch cfg now_local monthly = .error e := by
  rw [afterFetch, h]

theorem afterFetch_ok (cfg : Config) (now_local : String)
    (monthly : List (String × Series)) (scored : List (String × PyFloat))
    (h : lookupScores (monthly.map fun x => (x.1, metricsOf x.2)) cfg.risk_assets =
      .ok scored) :
    afterFetch cfg now_local monthly = afterScores cfg now_local monthly scored := by
  rw [afterFetch, h]

theorem afterScores_cons (cfg : Config) (now_local : String)
    (monthly : List (String × Series)) (scored : List (String × PyFloat))
    (top_name : String) (top_score : PyFloat) (rest : List (String × PyFloat))
    (h : rankRisk scored = (top_name, top_score) :: rest) :
    afterScores cfg now_local monthly scored =
      .ok (buildReport cfg (monthly.map fun x => (x.1, metricsOf x.2))
        (lastDatesOf monthly) ((top_name, top_score) :: rest) top_name top_score
        now_local) := by
  rw [afterScores, h]

/-- C9: every fatal outcome carries a non-zero exit status (`sys.exit(2)`
or an uncaught exception), and the run produces a report — the only output
— exactly when no fatal condition holds: there is no partial success. -/
theorem C9_fatal_outcomes (cfg : Config) (fetch : String → Option Series)
    (now_local : String) :
    (∀ e : Err, mainModel cfg fetch now_local = .error e → e.exitCode ≠ 0) ∧
    ((∃ rep, mainModel cfg fetch now_local = .ok rep) ↔ goodRun cfg fetch) := by
  refine ⟨fun e _ => by cases e <;> simp [Err.exitCode], ?_⟩
  by_cases h1 : cfg.tickers.isEmpty
  · rw [mainModel, if_pos h1]
    constructor
    · rintro ⟨rep, hrep⟩
      exact absurd hrep (by simp)
    · rintro ⟨hne, -⟩
      exact absurd (List.isEmpty_iff.mp h1) hne
  · by_cases h2 : cfg.risk_assets.isEmpty
    · rw [mainModel, if_neg h1, if_pos h2]
      constructor
      · rintro ⟨rep, hrep⟩
        exact absurd hrep (by simp)
      · rintro ⟨-, hne, -⟩
        exact absurd (List.isEmpty_iff.mp h2) hne
    · by_cases h3 : (List.lookup cfg.bonds_name cfg.tickers).isNone
      · rw [mainModel, if_neg h1, if_neg h2, if_pos h3]
        constructor
        · rintro ⟨rep, hrep⟩
          exact absurd hrep (by simp)
        · rintro ⟨-, -, hsome, -⟩
          rw [Option.isNone_iff_eq_none] at h3
          rw [h3] at hsome
          exact absurd hsome (by simp)
      · have h1' : cfg.tickers.isEmpty = false := by simpa using h1
        have h2' : cfg.risk_assets.isEmpty = false := by simpa using h2
        have h3' : (List.lookup cfg.bonds_name cfg.tickers).isNone = false := by
          simpa using h3
        rw [mainModel_checks_ok cfg fetch now_local h1' h2' h3']
        cases hfa : fetchAll fetch cfg.tickers with
        | error e =>
          constructor
          · rintro ⟨rep, hrep⟩
            exact absurd hrep (by simp)
          · intro hg
            obtain ⟨m, hm⟩ := (fetchAll_ok_iff fetch cfg.tickers).mpr hg.2.2.2.1
            rw [hfa] at hm
            exact absurd hm (by simp)
        | ok monthly =>
          rw [show (match (Except.ok monthly : Except Err (List (String × Series))) with
            | .error e => (.error e : Except Err Report)
            | .ok monthly => afterFetch cfg now_local monthly) =
              afterFetch cfg now_local monthly from rfl]
          have hnames := fetchAll_ok_names fetch cfg.tickers monthly hfa
          cases hls : lookupScores (monthly.map fun x => (x.1, metricsOf x.2))
              cfg.risk_assets with
          | error e =>
            rw [afterFetch_err cfg now_local monthly e hls]
            constructor
            · rintro ⟨rep, hrep⟩
              exact absurd hrep (by simp)
            · intro hg
              have hall : ∀ n ∈ cfg.risk_assets,
                  (List.lookup n (monthly.map fun x => (x.1, metricsOf x.2))).isSome =
                    true := by
                intro n hn
                rw [lookup_map_isSome, lookup_isSome_keys n monthly cfg.tickers hnames]
                exact hg.2.2.2.2 n hn
              obtain ⟨s, hs⟩ := (lookupScores_ok_iff _ cfg.risk_assets).mpr hall
              rw [hls] at hs
              exact absurd hs (by simp)
          | ok scored =>
            rw [afterFetch_ok cfg now_local monthly scored hls]
            have hscored_ne : scored ≠ [] := by
              intro hnil
              have hlen := lookupScores_ok_length _ cfg.risk_assets scored hls
              rw [hnil] at hlen
              have hre : cfg.risk_assets = [] := List.length_eq_zero.mp hlen.symm
              rw [hre] at h2'
              simp at h2'
            cases hrk : rankRisk scored with
            | nil => exact absurd hrk (rankRisk_ne_nil scored hscored_ne)
            | cons top rest =>
              obtain ⟨top_name, top_score⟩ := top
              rw [afterScores_cons cfg now_local monthly scored top_name top_score
                rest hrk]
              constructor
              · intro _
                refine ⟨fun hnil => by rw [hnil] at h1'; simp at h1',
                  fun hnil => by rw [hnil] at h2'; simp at h2', ?_,
                  (fetchAll_ok_iff fetch cfg.tickers).mp ⟨monthly, hfa⟩, ?_⟩
                · cases hopt : List.lookup cfg.bonds_name cfg.tickers with
                  | none => rw [hopt] at h3; simp at h3
                  | some v => simp
                · intro n hn
                  have hsome := (lookupScores_ok_iff _ cfg.risk_assets).mp
                    ⟨scored, hls⟩ n hn
                  rw [lookup_map_isSome, lookup_isSome_keys n monthly cfg.tickers
                    hnames] at hsome
                  exact hsome
              · intro _
                exact ⟨_, rfl⟩

/-- C9 witness: an empty configuration dies with exit status 2; the
concrete good run produces its report. -/
theorem C9_fatal_outcomes_witness :
    Err.exitCode .emptyTickers ≠ 0 ∧
    (∃ rep, mainModel cfgA fetchA "2026-10-12 00:00" = .ok rep) :=
  ⟨(C9_fatal_outcomes cfgEmpty (fun _ => none) "t").1 .emptyTickers rfl,
   (C9_fatal_outcomes cfgA fetchA "2026-10-12 00:00").2.mpr
     ⟨by decide, by decide, by decide, by decide, by decide⟩⟩

/-- The month-end data of the concrete NaN-top run. -/
def monthlyA : List (String × Series) :=
  [("A", month_end_series seriesA), ("BONDS", month_end_series seriesB)]

/-- C3 (amended): an undefined (NaN) top score is not fatal — the run
completes, the decision is risk-off (the safe haven is chosen), and NaN
scores render as "n/a". -/
theorem C3_undefined_top_risk_off (cfg : Config) (fetch : String → Option Series)
    (now_local : String) (monthly : List (String × Series))
    (scored : List (String × PyFloat)) (top_name : String)
    (rest : List (String × PyFloat))
    (h1 : cfg.tickers.isEmpty = false) (h2 : cfg.risk_assets.isEmpty = false)
    (h3 : (List.lookup cfg.bonds_name cfg.tickers).isNone = false)
    (h4 : fetchAll fetch cfg.tickers = .ok monthly)
    (h5 : lookupScores (monthly.map fun x => (x.1, metricsOf x.2)) cfg.risk_assets =
      .ok scored)
    (h6 : rankRisk scored = (top_name, .nan) :: rest) :
    mainModel cfg fetch now_local =
      .ok (buildReport cfg (monthly.map fun x => (x.1, metricsOf x.2))
        (lastDatesOf monthly) ((top_name, .nan) :: rest) top_name .nan now_local) ∧
    (buildReport cfg (monthly.map fun x => (x.1, metricsOf x.2))
        (lastDatesOf monthly) ((top_name, .nan) :: rest) top_name .nan
        now_local).choice = cfg.bonds_name ∧
    fmt_pct (some .nan) = "n/a" := by
  refine ⟨?_, ?_, rfl⟩
  · rw [mainModel_checks_ok cfg fetch now_local h1 h2 h3, h4,
      show (match (Except.ok monthly : Except Err (List (String × Series))) with
        | .error e => (.error e : Except Err Report)
        | .ok monthly => afterFetch cfg now_local monthly) =
          afterFetch cfg now_local monthly from rfl,
      afterFetch_ok cfg now_local monthly scored h5,
      afterScores_cons cfg now_local monthly scored top_name .nan rest h6]
  · simp [buildReport, riskOffCond, PyFloat.isNan]

/-- C3 amended witness: the concrete NaN-top run selects the safe haven. -/
theorem C3_undefined_top_risk_off_witness :
    (buildReport cfgA (monthlyA.map fun x => (x.1, metricsOf x.2))
      (lastDatesOf monthlyA) [("A", .nan)] "A" .nan
      "2026-10-12 00:00").choice = cfgA.bonds_name :=
  (C3_undefined_top_risk_off cfgA fetchA "2026-10-12 00:00" monthlyA [("A", .nan)]
    "A" [] rfl rfl rfl rfl rfl rfl).2.1

end GemBot
